import Mathlib

/-!
Verification of the CodexMonitor composer completion engine.

The development shallowly embeds the query-detection and completion
engine of the composer: the trigger parser (`findAtQuery`, `slashQuery`),
the candidate application and dismissal operations, the keyboard
navigation arithmetic, the debounced asynchronous file-search hook
(`useFileSearch`, modelled as the state machine `fileSearchStep`), and
the composer's reactive highlight state (modelled as the state machine
`cstep` with explicit effect-dependency snapshots mirroring the React
`useEffect` dependency arrays).

JavaScript strings are modelled as `List Char`; JavaScript string
operations used by the source (`slice`, `lastIndexOf`, `includes`,
`trim`, the `\s` character class) are given faithful counterparts below.
-/

/-- The JavaScript `\s` (whitespace) character class, as used by the
source's `/\s/.test(prevChar)` check and by `String.prototype.trim`. -/
def isJsWhitespace (c : Char) : Bool :=
  c = ' ' || c = '\t' || c = '\n' || c = Char.ofNat 11 || c = Char.ofNat 12 ||
  c = '\r' || c = Char.ofNat 0xa0 || c = Char.ofNat 0x1680 ||
  (0x2000 ≤ c.toNat && c.toNat ≤ 0x200a) ||
  c = Char.ofNat 0x2028 || c = Char.ofNat 0x2029 || c = Char.ofNat 0x202f ||
  c = Char.ofNat 0x205f || c = Char.ofNat 0x3000 || c = Char.ofNat 0xfeff

/-- JavaScript `String.prototype.lastIndexOf` for a single-character
needle: the greatest index holding the needle, or `-1` if absent. -/
def jsLastIndexOf {α : Type} [DecidableEq α] : List α → α → Int
  | [], _ => -1
  | x :: xs, a =>
    let r := jsLastIndexOf xs a
    if 0 ≤ r then r + 1
    else if x = a then 0 else -1

/-- JavaScript `String.prototype.trim`: drop `\s` characters from both
ends. -/
def jsTrim (l : List Char) : List Char :=
  ((l.dropWhile isJsWhitespace).reverse.dropWhile isJsWhitespace).reverse

/-- `MIN_AT_QUERY_LENGTH` from `Composer.tsx`. -/
def MIN_AT_QUERY_LENGTH : Nat := 1

/-- The `AtQueryState` record of `Composer.tsx`: a detected mention
trigger with its query and `[start, end)` span (`end` is spelled
`endIdx` because `end` is reserved in Lean). -/
structure AtQueryState where
  query : List Char
  start : Nat
  endIdx : Nat
deriving DecidableEq, Repr

/-- The body of `findAtQuery` after the negative-cursor guard, operating
on `beforeCursor = text.slice(0, cursorIndex)` (here `before`) with the
cursor position `c`.  The line segment before the cursor is scanned for
its last `@`, which must sit at the line start or after a whitespace
character, with no space and at least `minLength` characters between
the `@` and the cursor.  JavaScript's `line[atIndex - 1]` access is
modelled with `getD` and a whitespace default: an out-of-range read is
`undefined`, which the source's `prevChar && ...` guard treats as "no
rejection". -/
def findAtQueryCore (before : List Char) (c : Nat) (minLength : Nat) :
    Option AtQueryState :=
  let lineStart := (jsLastIndexOf before '\n' + 1).toNat
  let line := before.drop lineStart
  let atIndex := jsLastIndexOf line '@'
  if atIndex < 0 then none
  else
    let atN := atIndex.toNat
    if 0 < atN && !(isJsWhitespace (line.getD (atN - 1) ' ')) then none
    else
      let afterAt := line.drop (atN + 1)
      if ' ' ∈ afterAt then none
      else if afterAt.length < minLength then none
      else some ⟨afterAt, lineStart + atN, c⟩

/-- `findAtQuery` from `Composer.tsx`: a negative cursor yields `null`;
otherwise `findAtQueryCore` runs on the text sliced to the cursor
(JavaScript `slice` clamps an index past the end). -/
def findAtQuery (text : List Char) (cursorIndex : Int) (minLength : Nat) :
    Option AtQueryState :=
  if cursorIndex < 0 then none
  else findAtQueryCore (text.take cursorIndex.toNat) cursorIndex.toNat minLength

/-- The `slashQuery` memo of `Composer.tsx`: the slash-command query is
present iff the buffer starts with `/`, contains no newline, and the
text after the `/` contains no space. -/
def slashQuery (text : List Char) : Option (List Char) :=
  if text.head? ≠ some '/' then none
  else if '\n' ∈ text then none
  else
    let query := text.drop 1
    if ' ' ∈ query then none else some query

/-! ## Candidate application and dismissal (pure core)

`handleSelectFileItem`, `handleSelectSlashItem` and `clearAtQuery` in
`Composer.tsx` all funnel through `applyText(nextText, nextCursor)`.
Their effect on the buffer and cursor is captured by pure functions
returning the `(text, cursor)` pair passed to `applyText`. -/

/-- The buffer/cursor effect of `handleSelectFileItem`: with no mention
trigger, replace the whole buffer; with a trigger, splice `insertText`
over the trigger's span and place the cursor after the inserted text. -/
def handleSelectFileItemText (text : List Char) (atState : Option AtQueryState)
    (insertText : List Char) : List Char × Nat :=
  match atState with
  | none => (insertText, insertText.length)
  | some st =>
    let before := text.take st.start
    let after := text.drop st.endIdx
    (before ++ insertText ++ after, before.length + insertText.length)

/-- The buffer/cursor effect of `handleSelectSlashItem`: replace the
whole buffer with the candidate's `insertText`, cursor at its end. -/
def handleSelectSlashItemText (insertText : List Char) : List Char × Nat :=
  (insertText, insertText.length)

/-- The buffer/cursor effect of `clearAtQuery` when a mention trigger is
present: remove the trigger's span, cursor at the span's former start. -/
def clearAtQueryText (text : List Char) (st : AtQueryState) : List Char × Nat :=
  (text.take st.start ++ text.drop st.endIdx, st.start)

/-! ## Keyboard navigation arithmetic

The `ArrowDown` / `ArrowUp` branches of the textarea's `onKeyDown`
handler update the highlight with wrap-around, guarded by
`activeItems.length > 0` (no-op on an empty list). -/

/-- Highlight update for `ArrowDown`: `(prev + 1) % length`, no-op when
the candidate list is empty. -/
def arrowDownIndex (prev n : Nat) : Nat :=
  if n = 0 then prev else (prev + 1) % n

/-- Highlight update for `ArrowUp`: `(prev - 1 + length) % length`
(JavaScript arithmetic; `prev + n - 1` over `Nat` since `prev ≥ 0` and
`n ≥ 1`), no-op when the candidate list is empty. -/
def arrowUpIndex (prev n : Nat) : Nat :=
  if n = 0 then prev else (prev + n - 1) % n

/-! ## Logical characterisation of mention detection

`CoreOk` restates, in quantifier form, the spec's description of
mention detection: there is a line start `ls` (no newline at or after
it within the slice, and either `0` or just after a newline) and a
position `aIdx` holding the last `@` of the line, which is at the line
start or preceded by whitespace, with no space after it and an
after-text of at least the minimum length; the trigger then carries the
after-text and the span `[ls + aIdx, c)`. -/

def CoreOk (before : List Char) (c minLength : Nat) (st : AtQueryState) : Prop :=
  ∃ ls aIdx : Nat,
    '\n' ∉ before.drop ls ∧
    (ls = 0 ∨ before.get? (ls - 1) = some '\n') ∧
    (before.drop ls).get? aIdx = some '@' ∧
    '@' ∉ (before.drop ls).drop (aIdx + 1) ∧
    (aIdx = 0 ∨ ∃ pc, (before.drop ls).get? (aIdx - 1) = some pc ∧ isJsWhitespace pc) ∧
    ' ' ∉ (before.drop ls).drop (aIdx + 1) ∧
    minLength ≤ (before.drop ls).length - (aIdx + 1) ∧
    st = ⟨(before.drop ls).drop (aIdx + 1), ls + aIdx, c⟩

/-- The spec-side condition for `findAtQuery` on a non-negative cursor:
`CoreOk` on the slice of the text up to the cursor. -/
def MentionOk (text : List Char) (c minLength : Nat) (st : AtQueryState) : Prop :=
  CoreOk (text.take c) c minLength st

/-! ## The asynchronous file-search source (`useFileSearch`)

The hook in `hooks/useFileSearch.ts` is modelled as a state machine.
Its state holds the `requestId` ref (the sequence counter), the
displayed `items` and `isLoading` flags, the pending debounce timer (at
most one: the effect's cleanup `clearTimeout`s the previous timer
before the next run, and a fired timer is consumed), and the
observability log fed through `onDebug` (timestamps and entry ids,
being wall-clock data, are not modelled).

Events: `effectRun` is one execution of the `useEffect` body (a change
of `query` / `workspaceId` / `enabled` / `limit` / `debounceMs`,
preceded by the previous run's cleanup); `timerFire` is the debounce
timeout elapsing, which dispatches the backend request and logs it;
`responseOk` / `responseErr` deliver the resolution of an in-flight
`searchFiles` call tagged with the sequence number it captured.  A
`responseOk` payload of `none` models a non-array response (the
`Array.isArray` guard). -/

/-- One `onDebug` entry, without the wall-clock id/timestamp fields. -/
inductive FsDebugEntry : Type
  | clientDispatch (workspaceId : String) (query : List Char) (limit : Nat)
  | serverResponse (count : Nat)
  | clientError (message : String)
deriving DecidableEq, Repr

/-- A scheduled debounce timer: the sequence number it captured plus the
closure's `workspaceId`, trimmed query and `limit`. -/
structure FsTimer where
  id : Nat
  workspaceId : String
  query : List Char
  limit : Nat
deriving DecidableEq, Repr

/-- State of one `useFileSearch` instance. -/
structure FileSearchState where
  requestId : Nat
  items : List (List Char)
  isLoading : Bool
  pending : Option FsTimer
  debugLog : List FsDebugEntry
deriving DecidableEq, Repr

/-- The initial hook state: counter `0`, no items, not loading. -/
def fsInit : FileSearchState :=
  ⟨0, [], false, none, []⟩

inductive FsEvent : Type
  | effectRun (enabled : Bool) (workspaceId : Option String)
      (query : Option (List Char)) (limit : Nat)
  | timerFire
  | responseOk (id : Nat) (payload : Option (List (List Char)))
  | responseErr (id : Nat) (message : String)

/-- `response.map(String).filter(Boolean)` on an array response, `[]`
otherwise: empty strings are falsy and dropped. -/
def fsNormalize (payload : Option (List (List Char))) : List (List Char) :=
  match payload with
  | some vs => vs.filter (fun v => !v.isEmpty)
  | none => []

/-- One transition of the `useFileSearch` machine, following the hook
body line by line. -/
def fileSearchStep (s : FileSearchState) : FsEvent → FileSearchState
  | .effectRun enabled workspaceId query limit =>
    -- previous run's cleanup: `clearTimeout(handle)`
    let s := { s with pending := none }
    let trimmed := jsTrim (query.getD [])
    match enabled, workspaceId with
    | true, some wid =>
      if trimmed.length < 1 then
        { s with requestId := s.requestId + 1, items := [], isLoading := false }
      else
        let currentId := s.requestId + 1
        { s with requestId := currentId,
                 pending := some ⟨currentId, wid, trimmed, limit⟩ }
    | _, _ =>
      { s with requestId := s.requestId + 1, items := [], isLoading := false }
  | .timerFire =>
    match s.pending with
    | none => s
    | some t =>
      { s with pending := none, isLoading := true,
               debugLog := .clientDispatch t.workspaceId t.query t.limit :: s.debugLog }
  | .responseOk id payload =>
    if s.requestId ≠ id then s
    else
      let normalized := fsNormalize payload
      { s with items := normalized, isLoading := false,
               debugLog := .serverResponse normalized.length :: s.debugLog }
  | .responseErr id message =>
    if s.requestId ≠ id then s
    else
      { s with items := [], isLoading := false,
               debugLog := .clientError message :: s.debugLog }

/-- Folding a list of events through the machine. -/
def fileSearchRun (s : FileSearchState) (evs : List FsEvent) : FileSearchState :=
  evs.foldl fileSearchStep s

/-! ## The composer completion state machine

`Composer.tsx` keeps `text`, `cursorIndex` and `completionIndex` in
React state; everything else relevant here (`slashQuery`, `atState`,
`activeItems`, openness flags) is derived per render.  The two
`useEffect`s that reset and clamp `completionIndex` run after a commit
exactly when their dependency arrays changed; the machine therefore
stores the dependency snapshots of the previous commit (`deps1` for
`[atQuery, isCompletionOpen, slashQuery]`, `deps2` for
`[activeItems.length, isCompletionOpen]`) and replays both effects
after every handler.  The slash-item filter `filterSlashItems` lives in
`utils/slash.ts`, outside the sources at hand; the machine is
parametric in it (`filterFn`), so every theorem below holds for any
filter. -/

/-- A completion candidate (`SlashItem` from `types.ts`, fields as used
by `Composer.tsx` and `SlashMenu.tsx`). -/
structure CItem where
  id : String
  title : String
  hint : Option String
  description : Option String
  insertText : List Char
deriving DecidableEq, Repr

/-- Composer state: the React state triple plus props and the two
effect-dependency snapshots of the last commit. -/
structure CState where
  text : List Char
  cursorIndex : Nat
  completionIndex : Nat
  slashItems : List CItem
  fileItems : List CItem
  disabled : Bool
  deps1 : Option (List Char) × Bool × Option (List Char)
  deps2 : Nat × Bool
deriving DecidableEq, Repr

/-- `isSlashOpen = Boolean(slashQuery !== null && !disabled)`. -/
def isSlashOpenOf (s : CState) : Bool :=
  (slashQuery s.text).isSome && !s.disabled

/-- The `filteredSlashItems` memo: empty unless the slash menu is open,
otherwise the filter applied to the catalog and the query. -/
def filteredSlashItemsOf (filterFn : List CItem → List Char → List CItem)
    (s : CState) : List CItem :=
  match slashQuery s.text with
  | none => []
  | some q => if isSlashOpenOf s then filterFn s.slashItems q else []

/-- The `atState` memo: mention detection is skipped while disabled or
while the slash menu is open. -/
def atStateOf (s : CState) : Option AtQueryState :=
  if s.disabled || isSlashOpenOf s then none
  else findAtQuery s.text (s.cursorIndex : Int) MIN_AT_QUERY_LENGTH

/-- `atQuery = atState?.query ?? null`. -/
def atQueryOf (s : CState) : Option (List Char) :=
  (atStateOf s).map (fun st => st.query)

/-- `isAtOpen = Boolean(atQuery && !disabled && !isSlashOpen)`; a string
is truthy iff non-empty. -/
def isAtOpenOf (s : CState) : Bool :=
  (match atQueryOf s with
   | some q => !q.isEmpty
   | none => false) && !s.disabled && !(isSlashOpenOf s)

/-- `activeItems`: filtered slash items, file items, or nothing. -/
def activeItemsOf (filterFn : List CItem → List Char → List CItem)
    (s : CState) : List CItem :=
  if isSlashOpenOf s then filteredSlashItemsOf filterFn s
  else if isAtOpenOf s then s.fileItems
  else []

/-- `isCompletionOpen = isSlashOpen || isAtOpen`. -/
def isCompletionOpenOf (s : CState) : Bool :=
  isSlashOpenOf s || isAtOpenOf s

/-- Dependency array of the reset effect:
`[atQuery, isCompletionOpen, slashQuery]`. -/
def depsOneOf (s : CState) : Option (List Char) × Bool × Option (List Char) :=
  (atQueryOf s, isCompletionOpenOf s, slashQuery s.text)

/-- Dependency array of the clamp effect:
`[activeItems.length, isCompletionOpen]`. -/
def depsTwoOf (filterFn : List CItem → List Char → List CItem)
    (s : CState) : Nat × Bool :=
  ((activeItemsOf filterFn s).length, isCompletionOpenOf s)

/-- The highlight after the reset effect: `0` whenever its dependency
array changed since the last commit (both branches of the effect body
set `0`), the previous value otherwise. -/
def effIdxOne (s : CState) : Nat :=
  if depsOneOf s = s.deps1 then s.completionIndex else 0

/-- The highlight after both effects: the clamp effect runs when its
dependencies changed, returns early when the menu is closed, and
otherwise clamps the index left by the reset effect with `min` (`0` on
an empty list). -/
def effIdx (filterFn : List CItem → List Char → List CItem) (s : CState) : Nat :=
  if depsTwoOf filterFn s = s.deps2 then effIdxOne s
  else if isCompletionOpenOf s then
    (if (activeItemsOf filterFn s).length = 0 then 0
     else min (effIdxOne s) ((activeItemsOf filterFn s).length - 1))
  else effIdxOne s

/-- Replay of the two `completionIndex` effects after a commit, plus
the bookkeeping of the new dependency snapshots.  Both effects read
only derived render values (which neither alters) and the clamp effect
uses a functional state update, so it sees the index the reset effect
just wrote; the composed result is `effIdx`. -/
def runEffects (filterFn : List CItem → List Char → List CItem)
    (s : CState) : CState :=
  { s with completionIndex := effIdx filterFn s,
           deps1 := depsOneOf s, deps2 := depsTwoOf filterFn s }

/-- `applyText(nextText, nextCursor)`: set text and cursor and reset the
highlight (the `requestAnimationFrame` refocus has no modelled state). -/
def applyTextTo (s : CState) (t : List Char) (c : Nat) : CState :=
  { s with text := t, cursorIndex := c, completionIndex := 0 }

/-- `handleSelectSlashItem` on the composer state. -/
def handleSelectSlashItemS (s : CState) (it : CItem) : CState :=
  applyTextTo s it.insertText it.insertText.length

/-- `handleSelectFileItem` on the composer state. -/
def handleSelectFileItemS (s : CState) (it : CItem) : CState :=
  let tc := handleSelectFileItemText s.text (atStateOf s) it.insertText
  applyTextTo s tc.1 tc.2

/-- `clearAtQuery` on the composer state (no-op without a trigger). -/
def clearAtQueryS (s : CState) : CState :=
  match atStateOf s with
  | none => s
  | some st =>
    let tc := clearAtQueryText s.text st
    applyTextTo s tc.1 tc.2

/-- Input events of the composer machine: text/cursor changes from the
textarea, prop changes, the completion-relevant keys, and the menu's
hover/select callbacks. -/
inductive CEvent : Type
  | input (text : List Char) (cursor : Nat)
  | setCursor (cursor : Nat)
  | setSlashItems (items : List CItem)
  | setFileItems (items : List CItem)
  | setDisabled (b : Bool)
  | arrowDown
  | arrowUp
  | enter
  | escape
  | hover (i : Nat)
  | selectItem (i : Nat)

/-- The event handlers of `Composer.tsx` (the `onKeyDown` branches run
only while the menu is open and the composer is enabled; the menus emit
`hover`/`select` only for rendered rows). -/
def handle (filterFn : List CItem → List Char → List CItem)
    (s : CState) : CEvent → CState
  | .input t c => { s with text := t, cursorIndex := c }
  | .setCursor c => { s with cursorIndex := c }
  | .setSlashItems l => { s with slashItems := l }
  | .setFileItems l => { s with fileItems := l }
  | .setDisabled b => { s with disabled := b }
  | .arrowDown =>
    if s.disabled then s
    else if isCompletionOpenOf s then
      { s with completionIndex :=
          arrowDownIndex s.completionIndex (activeItemsOf filterFn s).length }
    else s
  | .arrowUp =>
    if s.disabled then s
    else if isCompletionOpenOf s then
      { s with completionIndex :=
          arrowUpIndex s.completionIndex (activeItemsOf filterFn s).length }
    else s
  | .enter =>
    if s.disabled then s
    else if isCompletionOpenOf s && 0 < (activeItemsOf filterFn s).length then
      match (activeItemsOf filterFn s).get? s.completionIndex with
      | some it =>
        if isSlashOpenOf s then handleSelectSlashItemS s it
        else handleSelectFileItemS s it
      | none => s
    else s
  | .escape =>
    if s.disabled then s
    else if isCompletionOpenOf s then
      if isSlashOpenOf s then applyTextTo s [] 0
      else clearAtQueryS s
    else s
  | .hover i => { s with completionIndex := i }
  | .selectItem i =>
    match (activeItemsOf filterFn s).get? i with
    | some it =>
      if isSlashOpenOf s then handleSelectSlashItemS s it
      else if isAtOpenOf s then handleSelectFileItemS s it
      else s
    | none => s

/-- One full machine step: run the handler, then replay the effects. -/
def cstep (filterFn : List CItem → List Char → List CItem)
    (s : CState) (e : CEvent) : CState :=
  runEffects filterFn (handle filterFn s e)

/-- The menus render one row per active item, so hover/select events
carry an index below the current candidate count; every other event is
unconstrained. -/
def ValidEvent (filterFn : List CItem → List Char → List CItem)
    (s : CState) : CEvent → Prop
  | .hover i => i < (activeItemsOf filterFn s).length
  | .selectItem i => i < (activeItemsOf filterFn s).length
  | _ => True

/-- The mounted composer: empty buffer, cursor `0`, highlight `0`, and
the dependency snapshots of the mount commit. -/
def initComposer (si fi : List CItem) (d : Bool) : CState :=
  ⟨[], 0, 0, si, fi, d, (none, false, none), (0, false)⟩

/-- Reachable composer states: the mount state followed by any sequence
of valid events. -/
inductive Reach (filterFn : List CItem → List Char → List CItem) : CState → Prop
  | init (si fi : List CItem) (d : Bool) : Reach filterFn (initComposer si fi d)
  | step (s : CState) (e : CEvent) : Reach filterFn s → ValidEvent filterFn s e →
      Reach filterFn (cstep filterFn s e)

/-! ## The highlight invariant -/

/-- The claimed invariant on the highlighted index: `0` on an empty
candidate list, otherwise strictly below the candidate count. -/
def HighlightOK (filterFn : List CItem → List Char → List CItem)
    (s : CState) : Prop :=
  if (activeItemsOf filterFn s).length = 0 then s.completionIndex = 0
  else s.completionIndex < (activeItemsOf filterFn s).length

/-- The machine invariant: the stored dependency snapshots agree with
the derived render values (they were written at the last commit and
nothing has changed since), and the highlight is in range. -/
def CInv (filterFn : List CItem → List Char → List CItem) (s : CState) : Prop :=
  s.deps1 = depsOneOf s ∧ s.deps2 = depsTwoOf filterFn s ∧ HighlightOK filterFn s

/-- The active trigger's identity: its kind (`true` for slash) and its
query, or `none` when closed. -/
def triggerSigOf (s : CState) : Option (Bool × List Char) :=
  if isSlashOpenOf s then (slashQuery s.text).map (fun q => (true, q))
  else if isAtOpenOf s then (atQueryOf s).map (fun q => (false, q))
  else none

/-- A concrete slash filter used to instantiate the parametric machine
in closed scenarios (theorems about the machine hold for every filter). -/
def idFilter : List CItem → List Char → List CItem := fun its _ => its

/-! ## Characterisation of `jsLastIndexOf` -/

theorem jsLastIndexOf_cons {α : Type} [DecidableEq α] (x : α) (xs : List α) (a : α) :
    jsLastIndexOf (x :: xs) a =
      (if 0 ≤ jsLastIndexOf xs a then jsLastIndexOf xs a + 1
       else if x = a then 0 else -1) := rfl

theorem jsLastIndexOf_ge {α : Type} [DecidableEq α] (l : List α) (a : α) :
    -1 ≤ jsLastIndexOf l a := by
  induction l with
  | nil => simp [jsLastIndexOf]
  | cons x xs ih =>
    rw [jsLastIndexOf_cons]
    split
    · omega
    · split <;> omega

theorem jsLastIndexOf_eq_neg_one_iff {α : Type} [DecidableEq α] (l : List α) (a : α) :
    jsLastIndexOf l a = -1 ↔ a ∉ l := by
  induction l with
  | nil => simp [jsLastIndexOf]
  | cons x xs ih =>
    have hge := jsLastIndexOf_ge xs a
    rw [jsLastIndexOf_cons]
    by_cases h0 : 0 ≤ jsLastIndexOf xs a
    · have hmem : a ∈ xs := by
        by_contra hm
        have := ih.mpr hm
        omega
      rw [if_pos h0]
      constructor
      · intro h; exact absurd h (by omega)
      · intro h; exact absurd (List.mem_cons_of_mem x hmem) h
    · have hnm : a ∉ xs := ih.mp (by omega)
      rw [if_neg h0]
      by_cases hx : x = a
      · rw [if_pos hx]
        constructor
        · intro h; exact absurd h (by omega)
        · intro h; exact absurd (hx ▸ List.mem_cons_self x xs) h
      · rw [if_neg hx]
        constructor
        · intro _ h
          rcases List.mem_cons.mp h with rfl | hm
          · exact hx rfl
          · exact hnm hm
        · intro _; rfl

theorem jsLastIndexOf_eq_coe_iff {α : Type} [DecidableEq α] (l : List α) (a : α) (n : Nat) :
    jsLastIndexOf l a = (n : Int) ↔ l.get? n = some a ∧ a ∉ l.drop (n + 1) := by
  induction l generalizing n with
  | nil =>
    simp only [jsLastIndexOf, List.get?_nil, List.drop_nil, List.not_mem_nil,
      not_false_iff, and_true]
    constructor
    · intro h; exact absurd h (by omega)
    · intro h; cases h
  | cons x xs ih =>
    have hge := jsLastIndexOf_ge xs a
    rw [jsLastIndexOf_cons]
    by_cases h0 : 0 ≤ jsLastIndexOf xs a
    · have hmem : a ∈ xs := by
        by_contra hm
        have := (jsLastIndexOf_eq_neg_one_iff xs a).mpr hm
        omega
      rw [if_pos h0]
      cases n with
      | zero =>
        simp only [List.get?_cons_zero, List.drop_succ_cons, List.drop_zero]
        constructor
        · intro h; exact absurd h (by omega)
        · rintro ⟨-, hnm⟩; exact absurd hmem hnm
      | succ k =>
        rw [List.get?_cons_succ, List.drop_succ_cons, ← ih k]
        omega
    · have hnm : a ∉ xs := (jsLastIndexOf_eq_neg_one_iff xs a).mp (by omega)
      rw [if_neg h0]
      by_cases hx : x = a
      · rw [if_pos hx]
        cases n with
        | zero =>
          simp only [List.get?_cons_zero, List.drop_succ_cons, List.drop_zero]
          simp [hx, hnm]
        | succ k =>
          rw [List.get?_cons_succ, List.drop_succ_cons]
          constructor
          · intro h; exact absurd h (by omega)
          · rintro ⟨hg, -⟩; exact absurd (List.get?_mem hg) hnm
      · rw [if_neg hx]
        constructor
        · intro h; exact absurd h (by omega)
        · rintro ⟨hg, -⟩
          exfalso
          cases n with
          | zero =>
            rw [List.get?_cons_zero] at hg
            exact hx (Option.some.inj hg)
          | succ k =>
            rw [List.get?_cons_succ] at hg
            exact hnm (List.get?_mem hg)

/-- The value `lastIndexOf + 1` (the "index after the last occurrence,
or `0` if none" idiom used for `lineStart`) is characterised by: no
occurrence at or after the result, and the result is `0` or directly
preceded by an occurrence. -/
theorem jsLastIndexOf_add_one_toNat_eq_iff {α : Type} [DecidableEq α]
    (l : List α) (a : α) (ls : Nat) :
    (jsLastIndexOf l a + 1).toNat = ls ↔
      (a ∉ l.drop ls ∧ (ls = 0 ∨ l.get? (ls - 1) = some a)) := by
  have hge := jsLastIndexOf_ge l a
  constructor
  · intro h
    by_cases h0 : 0 ≤ jsLastIndexOf l a
    · obtain ⟨m, hm⟩ : ∃ m : Nat, jsLastIndexOf l a = (m : Int) :=
        ⟨(jsLastIndexOf l a).toNat, by omega⟩
      have hc := (jsLastIndexOf_eq_coe_iff l a m).mp hm
      have hls : ls = m + 1 := by omega
      subst hls
      exact ⟨hc.2, Or.inr (by simpa using hc.1)⟩
    · have hr : jsLastIndexOf l a = -1 := by omega
      have hnm := (jsLastIndexOf_eq_neg_one_iff l a).mp hr
      have hls : ls = 0 := by omega
      subst hls
      exact ⟨by simpa using hnm, Or.inl rfl⟩
  · rintro ⟨hnd, h0 | hget⟩
    · subst h0
      have : jsLastIndexOf l a = -1 :=
        (jsLastIndexOf_eq_neg_one_iff l a).mpr (by simpa using hnd)
      omega
    · cases ls with
      | zero =>
        exfalso
        exact (by simpa using hnd : a ∉ l) (List.get?_mem (by simpa using hget))
      | succ k =>
        have : jsLastIndexOf l a = (k : Int) :=
          (jsLastIndexOf_eq_coe_iff l a k).mpr ⟨by simpa using hget, hnd⟩
        omega

theorem findAtQueryCore_eq_some_iff (before : List Char) (c minLength : Nat)
    (st : AtQueryState) :
    findAtQueryCore before c minLength = some st ↔ CoreOk before c minLength st := by
  simp only [findAtQueryCore]
  set L := (jsLastIndexOf before '\n' + 1).toNat with hL
  set line := before.drop L with hline
  have hLok : '\n' ∉ before.drop L ∧ (L = 0 ∨ before.get? (L - 1) = some '\n') :=
    (jsLastIndexOf_add_one_toNat_eq_iff before '\n' L).mp hL.symm
  have hge := jsLastIndexOf_ge line '@'
  -- uniqueness of a witness pair in `CoreOk`
  have huniq : ∀ ls aIdx : Nat,
      '\n' ∉ before.drop ls → (ls = 0 ∨ before.get? (ls - 1) = some '\n') →
      (before.drop ls).get? aIdx = some '@' → '@' ∉ (before.drop ls).drop (aIdx + 1) →
      ls = L ∧ jsLastIndexOf line '@' = (aIdx : Int) := by
    intro ls aIdx h1 h2 h3 h4
    have hls : ls = L := by
      have := (jsLastIndexOf_add_one_toNat_eq_iff before '\n' ls).mpr ⟨h1, h2⟩
      omega
    subst hls
    exact ⟨rfl, (jsLastIndexOf_eq_coe_iff line '@' aIdx).mpr ⟨h3, h4⟩⟩
  by_cases hr0 : jsLastIndexOf line '@' < 0
  · rw [if_pos hr0]
    have hnone : '@' ∉ line := (jsLastIndexOf_eq_neg_one_iff line '@').mp (by omega)
    constructor
    · intro h; cases h
    · rintro ⟨ls, aIdx, h1, h2, h3, h4, -, -, -, -⟩
      obtain ⟨hls, -⟩ := huniq ls aIdx h1 h2 h3 h4
      subst hls
      exact absurd (List.get?_mem h3) hnone
  · rw [if_neg hr0]
    obtain ⟨m, hm⟩ : ∃ m : Nat, jsLastIndexOf line '@' = (m : Int) :=
      ⟨(jsLastIndexOf line '@').toNat, by omega⟩
    have hrt : (jsLastIndexOf line '@').toNat = m := by omega
    rw [hrt]
    have hcore := (jsLastIndexOf_eq_coe_iff line '@' m).mp hm
    have hat : line.get? m = some '@' := hcore.1
    have hlast : '@' ∉ line.drop (m + 1) := hcore.2
    have hmlt : m < line.length := by
      rcases List.get?_eq_some.mp hat with ⟨h, -⟩
      exact h
    have haIdx : ∀ ls aIdx : Nat,
        '\n' ∉ before.drop ls → (ls = 0 ∨ before.get? (ls - 1) = some '\n') →
        (before.drop ls).get? aIdx = some '@' → '@' ∉ (before.drop ls).drop (aIdx + 1) →
        ls = L ∧ aIdx = m := by
      intro ls aIdx h1 h2 h3 h4
      obtain ⟨hls, hai⟩ := huniq ls aIdx h1 h2 h3 h4
      exact ⟨hls, by omega⟩
    by_cases hws : 0 < m ∧ isJsWhitespace (line.getD (m - 1) ' ') = false
    · rw [if_pos (by
        simp only [Bool.and_eq_true, decide_eq_true_eq, Bool.not_eq_true']
        exact ⟨hws.1, hws.2⟩)]
      constructor
      · intro h; cases h
      · rintro ⟨ls, aIdx, h1, h2, h3, h4, hwsOk, -, -, -⟩
        obtain ⟨hls, hai⟩ := haIdx ls aIdx h1 h2 h3 h4
        subst hls; subst hai
        rcases hwsOk with h0 | ⟨pc, hpc, hpcws⟩
        · omega
        · rw [List.getD_eq_getD_get?, hpc] at hws
          exact absurd hws.2 (by simp [hpcws])
    · have hwsn : ¬ (0 < m && !(isJsWhitespace (line.getD (m - 1) ' '))) = true := by
        intro hcontra
        apply hws
        simpa using hcontra
      rw [if_neg hwsn]
      have hwsDisj : m = 0 ∨ ∃ pc, line.get? (m - 1) = some pc ∧ isJsWhitespace pc := by
        by_cases h0 : m = 0
        · exact Or.inl h0
        · refine Or.inr ⟨line.get ⟨m - 1, by omega⟩, List.get?_eq_get _, ?_⟩
          by_contra hcon
          apply hws
          refine ⟨by omega, ?_⟩
          rw [List.getD_eq_getD_get?, List.get?_eq_get (by omega : m - 1 < line.length)]
          simpa using hcon
      by_cases hsp : ' ' ∈ line.drop (m + 1)
      · rw [if_pos hsp]
        constructor
        · intro h; cases h
        · rintro ⟨ls, aIdx, h1, h2, h3, h4, -, hsp2, -, -⟩
          obtain ⟨hls, hai⟩ := haIdx ls aIdx h1 h2 h3 h4
          subst hls; subst hai
          exact (hsp2 hsp).elim
      · rw [if_neg hsp]
        by_cases hlen : (line.drop (m + 1)).length < minLength
        · rw [if_pos hlen]
          constructor
          · intro h; cases h
          · rintro ⟨ls, aIdx, h1, h2, h3, h4, -, -, hlen2, -⟩
            obtain ⟨hls, hai⟩ := haIdx ls aIdx h1 h2 h3 h4
            subst hls; subst hai
            rw [List.length_drop] at hlen
            rw [← hline] at hlen2
            omega
        · rw [if_neg hlen]
          constructor
          · intro h
            refine ⟨L, m, hLok.1, hLok.2, hat, hlast, hwsDisj, hsp, ?_, ?_⟩
            · rw [← hline]
              rw [List.length_drop] at hlen
              omega
            · exact (Option.some.inj h).symm
          · rintro ⟨ls, aIdx, h1, h2, h3, h4, -, -, -, hst⟩
            obtain ⟨hls, hai⟩ := haIdx ls aIdx h1 h2 h3 h4
            subst hls; subst hai
            rw [hst]

/-- On a non-negative cursor, `findAtQuery` reduces to the core. -/
theorem findAtQuery_ofNat (text : List Char) (c : Nat) (minLength : Nat) :
    findAtQuery text (c : Int) minLength = findAtQueryCore (text.take c) c minLength := by
  rw [findAtQuery, if_neg (by omega : ¬ ((c : Int) < 0))]
  norm_num

/-- Full characterisation of mention detection for non-negative cursors. -/
theorem findAtQuery_eq_some_iff (text : List Char) (c minLength : Nat)
    (st : AtQueryState) :
    findAtQuery text (c : Int) minLength = some st ↔ MentionOk text c minLength st := by
  rw [findAtQuery_ofNat]
  exact findAtQueryCore_eq_some_iff (text.take c) c minLength st

/-- A produced mention trigger starts strictly inside the text (its `@`
is a character of the buffer) and its query meets the length floor. -/
theorem findAtQuery_some_facts (text : List Char) (ci : Int) (m : Nat)
    (st : AtQueryState) (h : findAtQuery text ci m = some st) :
    st.start < text.length ∧ m ≤ st.query.length := by
  rw [findAtQuery] at h
  by_cases hc : ci < 0
  · rw [if_pos hc] at h; cases h
  · rw [if_neg hc] at h
    obtain ⟨ls, aIdx, h1, h2, h3, h4, h5, h6, h7, h8⟩ :=
      (findAtQueryCore_eq_some_iff _ _ _ _).mp h
    subst h8
    rcases List.get?_eq_some.mp h3 with ⟨hlt, -⟩
    rw [List.length_drop] at hlt
    have h9 : (text.take ci.toNat).length ≤ text.length := by
      rw [List.length_take]; omega
    constructor
    · show ls + aIdx < text.length
      omega
    · show m ≤ (((text.take ci.toNat).drop ls).drop (aIdx + 1)).length
      rw [List.length_drop, List.length_drop]
      rw [List.length_drop] at h7
      omega

/-- A stale success response (sequence number differing from the current
counter) changes nothing at all. -/
theorem fileSearchStep_stale_ok (s : FileSearchState) (id : Nat)
    (payload : Option (List (List Char))) (h : id ≠ s.requestId) :
    fileSearchStep s (.responseOk id payload) = s := by
  rw [fileSearchStep, if_pos (Ne.symm h)]

/-- A stale error response changes nothing at all. -/
theorem fileSearchStep_stale_err (s : FileSearchState) (id : Nat)
    (message : String) (h : id ≠ s.requestId) :
    fileSearchStep s (.responseErr id message) = s := by
  rw [fileSearchStep, if_pos (Ne.symm h)]

/-- A current error response is fully handled: items cleared, the error
logged to the observability sink, the loading flag cleared, and the
counter and pending timer untouched. -/
theorem fileSearchStep_current_err (s : FileSearchState) (id : Nat)
    (message : String) (h : s.requestId = id) :
    fileSearchStep s (.responseErr id message) =
      { s with items := [], isLoading := false,
               debugLog := .clientError message :: s.debugLog } := by
  rw [fileSearchStep, if_neg (by simpa using h)]

/-- An effect run with a valid query (enabled, workspace present,
non-empty trimmed query) cancels any pending timer, advances the
sequence counter and arms a fresh timer for the trimmed query; it logs
nothing and leaves the displayed items and loading flag alone. -/
theorem fileSearchStep_effectRun_valid (s : FileSearchState) (wid : String)
    (q : List Char) (limit : Nat) (h : 1 ≤ (jsTrim q).length) :
    fileSearchStep s (.effectRun true (some wid) (some q) limit) =
      { s with requestId := s.requestId + 1,
               pending := some ⟨s.requestId + 1, wid, jsTrim q, limit⟩ } := by
  simp only [fileSearchStep, Option.getD_some]
  rw [if_neg (by omega)]

/-- Processing a burst of valid queries back to back (no timer fires in
between, i.e. each arrives within the debounce window of the previous)
dispatches nothing, leaves items and loading untouched, advances the
counter once per query, and leaves exactly one armed timer: the one for
the last query of the burst. -/
theorem fileSearchRun_burst (wid : String) (limit : Nat) (qs : List (List Char)) :
    ∀ (s : FileSearchState) (qlast : List Char),
      (∀ q ∈ qs, 1 ≤ (jsTrim q).length) → qs.getLast? = some qlast →
      fileSearchRun s (qs.map (fun q => .effectRun true (some wid) (some q) limit)) =
        { s with requestId := s.requestId + qs.length,
                 pending := some ⟨s.requestId + qs.length, wid, jsTrim qlast, limit⟩ } := by
  induction qs with
  | nil => intro s qlast _ hlast; cases hlast
  | cons q rest ih =>
    intro s qlast hval hlast
    have hq : 1 ≤ (jsTrim q).length := hval q (List.mem_cons_self q rest)
    have hstep := fileSearchStep_effectRun_valid s wid q limit hq
    cases rest with
    | nil =>
      have hq' : q = qlast := by simpa using hlast
      subst hq'
      simp [fileSearchRun, hstep]
    | cons r rest' =>
      have hlast' := hlast
      rw [List.getLast?_cons_cons] at hlast'
      have hval' : ∀ x ∈ r :: rest', 1 ≤ (jsTrim x).length := fun x hx =>
        hval x (List.mem_cons_of_mem q hx)
      have hrec := ih (fileSearchStep s (.effectRun true (some wid) (some q) limit))
        qlast hval' hlast'
      rw [hstep] at hrec
      simp only [fileSearchRun, List.map_cons, List.foldl_cons] at hrec ⊢
      rw [hstep, hrec]
      simp only [List.length_cons]
      have harith : s.requestId + 1 + (rest'.length + 1) =
          s.requestId + (rest'.length + 1 + 1) := by omega
      rw [harith]

/-- A fire of a pending timer dispatches the request: loading goes true
and the dispatch is logged with the closure's workspace, query and
limit. -/
theorem fileSearchStep_fire (s : FileSearchState) (t : FsTimer)
    (h : s.pending = some t) :
    fileSearchStep s .timerFire =
      { s with pending := none, isLoading := true,
               debugLog := .clientDispatch t.workspaceId t.query t.limit :: s.debugLog } := by
  rw [fileSearchStep, h]

/-- A closed menu has no active items. -/
theorem activeItems_nil_of_closed (filterFn : List CItem → List Char → List CItem)
    (s : CState) (h : isCompletionOpenOf s = false) :
    activeItemsOf filterFn s = [] := by
  rw [isCompletionOpenOf, Bool.or_eq_false_iff] at h
  simp [activeItemsOf, h.1, h.2]

/-- If mention detection produced a trigger, the composer is enabled
and the slash menu is closed. -/
theorem atStateOf_some_flags (s : CState) (st : AtQueryState)
    (h : atStateOf s = some st) :
    s.disabled = false ∧ isSlashOpenOf s = false := by
  rw [atStateOf] at h
  by_cases hc : (s.disabled || isSlashOpenOf s) = true
  · rw [if_pos hc] at h; cases h
  · exact Bool.or_eq_false_iff.mp (by simpa using hc)

/-- While the slash menu is open, mention detection is skipped. -/
theorem atQueryOf_none_of_slashOpen (s : CState) (h : isSlashOpenOf s = true) :
    atQueryOf s = none := by
  rw [atQueryOf, atStateOf, if_pos (by simp [h])]
  rfl

/-- Core step for invariant preservation: if the handler's output `s`
kept the dependency snapshots of the invariant-satisfying pre-state
`prev`, and its highlight is `0`, unchanged, or already in range, then
replaying the effects restores the full invariant. -/
theorem runEffects_cinv (filterFn : List CItem → List Char → List CItem)
    (prev s : CState) (h1 : s.deps1 = prev.deps1) (h2 : s.deps2 = prev.deps2)
    (hprev : CInv filterFn prev)
    (hidx : s.completionIndex = 0 ∨ s.completionIndex = prev.completionIndex ∨
      HighlightOK filterFn s) :
    CInv filterFn (runEffects filterFn s) := by
  obtain ⟨hp1, hp2, hp3⟩ := hprev
  refine ⟨rfl, rfl, ?_⟩
  show if (activeItemsOf filterFn s).length = 0 then effIdx filterFn s = 0
       else effIdx filterFn s < (activeItemsOf filterFn s).length
  rw [effIdx]
  by_cases hd2 : depsTwoOf filterFn s = s.deps2
  · rw [if_pos hd2, effIdxOne]
    by_cases hd1 : depsOneOf s = s.deps1
    · rw [if_pos hd1]
      rcases hidx with h0 | hpidx | hok
      · rw [h0]
        by_cases hn : (activeItemsOf filterFn s).length = 0
        · rw [if_pos hn]
        · rw [if_neg hn]; omega
      · have hone : depsOneOf s = depsOneOf prev := by rw [hd1, h1, hp1]
        have htwo : depsTwoOf filterFn s = depsTwoOf filterFn prev := by
          rw [hd2, h2, hp2]
        have hn : (activeItemsOf filterFn s).length =
            (activeItemsOf filterFn prev).length := congrArg Prod.fst htwo
        rw [HighlightOK] at hp3
        by_cases hn0 : (activeItemsOf filterFn s).length = 0
        · rw [if_pos hn0, hpidx]
          rw [if_pos (by omega)] at hp3
          exact hp3
        · rw [if_neg hn0, hpidx]
          rw [if_neg (by omega)] at hp3
          omega
      · rw [HighlightOK] at hok
        exact hok
    · rw [if_neg hd1]
      by_cases hn : (activeItemsOf filterFn s).length = 0
      · rw [if_pos hn]
      · rw [if_neg hn]; omega
  · rw [if_neg hd2]
    by_cases hop : isCompletionOpenOf s = true
    · rw [if_pos hop]
      by_cases hn : (activeItemsOf filterFn s).length = 0
      · simp only [if_pos hn]
      · simp only [if_neg hn]
        omega
    · rw [if_neg hop]
      have hnil : activeItemsOf filterFn s = [] :=
        activeItems_nil_of_closed filterFn s (by simpa using hop)
      rw [effIdxOne]
      by_cases hd1 : depsOneOf s = s.deps1
      · exfalso
        apply hd2
        have hone : depsOneOf s = depsOneOf prev := by rw [hd1, h1, hp1]
        have hopenprev : isCompletionOpenOf prev = isCompletionOpenOf s :=
          (congrArg (fun p => p.2.1) hone).symm
        have hnilp : activeItemsOf filterFn prev = [] :=
          activeItems_nil_of_closed filterFn prev
            (by rw [hopenprev]; simpa using hop)
        rw [h2, hp2, depsTwoOf, depsTwoOf, hnil, hnilp, hopenprev]
      · rw [if_neg hd1]
        simp [hnil]

/-- Every valid event preserves the machine invariant. -/
theorem cinv_step (filterFn : List CItem → List Char → List CItem)
    (s : CState) (e : CEvent) (h : CInv filterFn s) (hv : ValidEvent filterFn s e) :
    CInv filterFn (cstep filterFn s e) := by
  cases e with
  | input t c =>
    exact runEffects_cinv filterFn s _ rfl rfl h (Or.inr (Or.inl rfl))
  | setCursor c =>
    exact runEffects_cinv filterFn s _ rfl rfl h (Or.inr (Or.inl rfl))
  | setSlashItems l =>
    exact runEffects_cinv filterFn s _ rfl rfl h (Or.inr (Or.inl rfl))
  | setFileItems l =>
    exact runEffects_cinv filterFn s _ rfl rfl h (Or.inr (Or.inl rfl))
  | setDisabled b =>
    exact runEffects_cinv filterFn s _ rfl rfl h (Or.inr (Or.inl rfl))
  | hover i =>
    refine runEffects_cinv filterFn s _ rfl rfl h (Or.inr (Or.inr ?_))
    have hv' : i < (activeItemsOf filterFn s).length := hv
    show HighlightOK filterFn { s with completionIndex := i }
    rw [HighlightOK]
    have hact : activeItemsOf filterFn { s with completionIndex := i } =
        activeItemsOf filterFn s := rfl
    rw [hact, if_neg (by omega)]
    exact hv'
  | arrowDown =>
    by_cases hd : s.disabled = true
    · have hh : handle filterFn s .arrowDown = s := by simp [handle, hd]
      simp only [cstep]; rw [hh]
      exact runEffects_cinv filterFn s s rfl rfl h (Or.inr (Or.inl rfl))
    · by_cases hop : isCompletionOpenOf s = true
      · have hh : handle filterFn s .arrowDown =
            { s with completionIndex :=
                arrowDownIndex s.completionIndex (activeItemsOf filterFn s).length } := by
          simp [handle, hd, hop]
        simp only [cstep]; rw [hh]
        by_cases hn : (activeItemsOf filterFn s).length = 0
        · refine runEffects_cinv filterFn s _ rfl rfl h (Or.inr (Or.inl ?_))
          show arrowDownIndex s.completionIndex (activeItemsOf filterFn s).length =
            s.completionIndex
          rw [arrowDownIndex, if_pos hn]
        · refine runEffects_cinv filterFn s _ rfl rfl h (Or.inr (Or.inr ?_))
          rw [HighlightOK]
          have hact : activeItemsOf filterFn
              { s with completionIndex :=
                  arrowDownIndex s.completionIndex (activeItemsOf filterFn s).length } =
              activeItemsOf filterFn s := rfl
          rw [hact, if_neg hn]
          show arrowDownIndex s.completionIndex (activeItemsOf filterFn s).length < _
          rw [arrowDownIndex, if_neg hn]
          exact Nat.mod_lt _ (by omega)
      · have hh : handle filterFn s .arrowDown = s := by simp [handle, hd, hop]
        simp only [cstep]; rw [hh]
        exact runEffects_cinv filterFn s s rfl rfl h (Or.inr (Or.inl rfl))
  | arrowUp =>
    by_cases hd : s.disabled = true
    · have hh : handle filterFn s .arrowUp = s := by simp [handle, hd]
      simp only [cstep]; rw [hh]
      exact runEffects_cinv filterFn s s rfl rfl h (Or.inr (Or.inl rfl))
    · by_cases hop : isCompletionOpenOf s = true
      · have hh : handle filterFn s .arrowUp =
            { s with completionIndex :=
                arrowUpIndex s.completionIndex (activeItemsOf filterFn s).length } := by
          simp [handle, hd, hop]
        simp only [cstep]; rw [hh]
        by_cases hn : (activeItemsOf filterFn s).length = 0
        · refine runEffects_cinv filterFn s _ rfl rfl h (Or.inr (Or.inl ?_))
          show arrowUpIndex s.completionIndex (activeItemsOf filterFn s).length =
            s.completionIndex
          rw [arrowUpIndex, if_pos hn]
        · refine runEffects_cinv filterFn s _ rfl rfl h (Or.inr (Or.inr ?_))
          rw [HighlightOK]
          have hact : activeItemsOf filterFn
              { s with completionIndex :=
                  arrowUpIndex s.completionIndex (activeItemsOf filterFn s).length } =
              activeItemsOf filterFn s := rfl
          rw [hact, if_neg hn]
          show arrowUpIndex s.completionIndex (activeItemsOf filterFn s).length < _
          rw [arrowUpIndex, if_neg hn]
          exact Nat.mod_lt _ (by omega)
      · have hh : handle filterFn s .arrowUp = s := by simp [handle, hd, hop]
        simp only [cstep]; rw [hh]
        exact runEffects_cinv filterFn s s rfl rfl h (Or.inr (Or.inl rfl))
  | enter =>
    by_cases hd : s.disabled = true
    · have hh : handle filterFn s .enter = s := by simp [handle, hd]
      simp only [cstep]; rw [hh]
      exact runEffects_cinv filterFn s s rfl rfl h (Or.inr (Or.inl rfl))
    · by_cases hc :
          (isCompletionOpenOf s && decide (0 < (activeItemsOf filterFn s).length)) = true
      · cases hget : (activeItemsOf filterFn s)[s.completionIndex]? with
        | none =>
          have hh : handle filterFn s .enter = s := by simp [handle, hd, hc, hget]
          simp only [cstep]; rw [hh]
          exact runEffects_cinv filterFn s s rfl rfl h (Or.inr (Or.inl rfl))
        | some it =>
          have hh : handle filterFn s .enter =
              (if isSlashOpenOf s then handleSelectSlashItemS s it
               else handleSelectFileItemS s it) := by
            simp [handle, hd, hc, hget]
          simp only [cstep]; rw [hh]
          by_cases hs : isSlashOpenOf s = true
          · rw [if_pos hs]
            exact runEffects_cinv filterFn s _ rfl rfl h (Or.inl rfl)
          · rw [if_neg hs]
            exact runEffects_cinv filterFn s _ rfl rfl h (Or.inl rfl)
      · have hh : handle filterFn s .enter = s := by simp [handle, hd, hc]
        simp only [cstep]; rw [hh]
        exact runEffects_cinv filterFn s s rfl rfl h (Or.inr (Or.inl rfl))
  | escape =>
    by_cases hd : s.disabled = true
    · have hh : handle filterFn s .escape = s := by simp [handle, hd]
      simp only [cstep]; rw [hh]
      exact runEffects_cinv filterFn s s rfl rfl h (Or.inr (Or.inl rfl))
    · by_cases hop : isCompletionOpenOf s = true
      · by_cases hs : isSlashOpenOf s = true
        · have hh : handle filterFn s .escape = applyTextTo s [] 0 := by
            simp [handle, hd, hop, hs]
          simp only [cstep]; rw [hh]
          exact runEffects_cinv filterFn s _ rfl rfl h (Or.inl rfl)
        · have hh : handle filterFn s .escape = clearAtQueryS s := by
            simp [handle, hd, hop, hs]
          simp only [cstep]; rw [hh]
          cases hat : atStateOf s with
          | none =>
            have hcc : clearAtQueryS s = s := by simp [clearAtQueryS, hat]
            rw [hcc]
            exact runEffects_cinv filterFn s s rfl rfl h (Or.inr (Or.inl rfl))
          | some st =>
            have hcc : clearAtQueryS s =
                applyTextTo s (clearAtQueryText s.text st).1
                  (clearAtQueryText s.text st).2 := by
              simp [clearAtQueryS, hat]
            rw [hcc]
            exact runEffects_cinv filterFn s _ rfl rfl h (Or.inl rfl)
      · have hh : handle filterFn s .escape = s := by simp [handle, hd, hop]
        simp only [cstep]; rw [hh]
        exact runEffects_cinv filterFn s s rfl rfl h (Or.inr (Or.inl rfl))
  | selectItem i =>
    cases hget : (activeItemsOf filterFn s)[i]? with
    | none =>
      have hh : handle filterFn s (.selectItem i) = s := by simp [handle, hget]
      simp only [cstep]; rw [hh]
      exact runEffects_cinv filterFn s s rfl rfl h (Or.inr (Or.inl rfl))
    | some it =>
      have hh : handle filterFn s (.selectItem i) =
          (if isSlashOpenOf s then handleSelectSlashItemS s it
           else if isAtOpenOf s then handleSelectFileItemS s it else s) := by
        simp [handle, hget]
      simp only [cstep]; rw [hh]
      by_cases hs : isSlashOpenOf s = true
      · rw [if_pos hs]
        exact runEffects_cinv filterFn s _ rfl rfl h (Or.inl rfl)
      · rw [if_neg hs]
        by_cases ha : isAtOpenOf s = true
        · rw [if_pos ha]
          exact runEffects_cinv filterFn s _ rfl rfl h (Or.inl rfl)
        · rw [if_neg ha]
          exact runEffects_cinv filterFn s s rfl rfl h (Or.inr (Or.inl rfl))

/-- The mount state satisfies the invariant. -/
theorem cinv_init (filterFn : List CItem → List Char → List CItem)
    (si fi : List CItem) (d : Bool) : CInv filterFn (initComposer si fi d) := by
  cases d with
  | false =>
    refine ⟨rfl, rfl, ?_⟩
    have hact : activeItemsOf filterFn (initComposer si fi false) = [] := rfl
    rw [HighlightOK, hact]
    simp [initComposer]
  | true =>
    refine ⟨rfl, rfl, ?_⟩
    have hact : activeItemsOf filterFn (initComposer si fi true) = [] := rfl
    rw [HighlightOK, hact]
    simp [initComposer]

/-- Every reachable composer state satisfies the invariant. -/
theorem reach_cinv (filterFn : List CItem → List Char → List CItem)
    (s : CState) (h : Reach filterFn s) : CInv filterFn s := by
  induction h with
  | init si fi d => exact cinv_init filterFn si fi d
  | step s e _ hv ih => exact cinv_step filterFn s e ih hv

/-! ## Reset-on-trigger-change -/

theorem applyTextTo_deps (s : CState) (t : List Char) (c : Nat) :
    (applyTextTo s t c).deps1 = s.deps1 ∧ (applyTextTo s t c).deps2 = s.deps2 :=
  ⟨rfl, rfl⟩

theorem clearAtQueryS_deps (s : CState) :
    (clearAtQueryS s).deps1 = s.deps1 ∧ (clearAtQueryS s).deps2 = s.deps2 := by
  rw [clearAtQueryS]
  cases hat : atStateOf s <;> exact ⟨rfl, rfl⟩

/-- No handler writes the dependency snapshots; only `runEffects` does. -/
theorem handle_deps (filterFn : List CItem → List Char → List CItem)
    (s : CState) (e : CEvent) :
    (handle filterFn s e).deps1 = s.deps1 ∧ (handle filterFn s e).deps2 = s.deps2 := by
  cases e <;> simp only [handle] <;> (repeat' split) <;>
    first
      | exact ⟨rfl, rfl⟩
      | exact ⟨trivial, trivial⟩
      | exact clearAtQueryS_deps s

/-- The trigger signature is a function of the reset effect's
dependency array. -/
theorem triggerSig_depsOne (s u : CState) (h : depsOneOf s = depsOneOf u) :
    triggerSigOf s = triggerSigOf u := by
  have hA : atQueryOf s = atQueryOf u := congrArg (fun p => p.1) h
  have hO : isCompletionOpenOf s = isCompletionOpenOf u := congrArg (fun p => p.2.1) h
  have hS : slashQuery s.text = slashQuery u.text := congrArg (fun p => p.2.2) h
  have key : ∀ w : CState, triggerSigOf w =
      (if isCompletionOpenOf w then
        (match atQueryOf w with
         | some q => some (false, q)
         | none => (slashQuery w.text).map (fun q => (true, q)))
       else none) := by
    intro w
    rw [triggerSigOf]
    by_cases hs : isSlashOpenOf w = true
    · rw [if_pos hs, atQueryOf_none_of_slashOpen w hs]
      have hopen : isCompletionOpenOf w = true := by simp [isCompletionOpenOf, hs]
      rw [if_pos hopen]
    · rw [if_neg hs]
      by_cases ha : isAtOpenOf w = true
      · have hopen : isCompletionOpenOf w = true := by simp [isCompletionOpenOf, ha]
        rw [if_pos ha, if_pos hopen]
        cases haq : atQueryOf w with
        | none => exfalso; rw [isAtOpenOf, haq] at ha; simp at ha
        | some q => rfl
      · rw [if_neg ha]
        have hs' : isSlashOpenOf w = false := by
          revert hs; cases isSlashOpenOf w <;> simp
        have ha' : isAtOpenOf w = false := by
          revert ha; cases isAtOpenOf w <;> simp
        have hopen : isCompletionOpenOf w = false := by
          rw [isCompletionOpenOf, hs', ha']
          rfl
        rw [if_neg (by simp [hopen])]
  rw [key s, key u, hA, hO, hS]

/-- Whenever a step changes the trigger signature (query text or kind,
including opening or closing), the highlight after the step is `0`. -/
theorem cstep_reset (filterFn : List CItem → List Char → List CItem)
    (s : CState) (e : CEvent) (h : CInv filterFn s)
    (hsig : triggerSigOf (cstep filterFn s e) ≠ triggerSigOf s) :
    (cstep filterFn s e).completionIndex = 0 := by
  have hd := handle_deps filterFn s e
  by_cases h1 : depsOneOf (handle filterFn s e) = (handle filterFn s e).deps1
  · exfalso
    apply hsig
    have hsig1 : triggerSigOf (cstep filterFn s e) =
        triggerSigOf (handle filterFn s e) := rfl
    rw [hsig1]
    apply triggerSig_depsOne
    rw [h1, hd.1, h.1]
  · show effIdx filterFn (handle filterFn s e) = 0
    rw [effIdx, effIdxOne, if_neg h1]
    by_cases h2 : depsTwoOf filterFn (handle filterFn s e) = (handle filterFn s e).deps2
    · rw [if_pos h2]
    · rw [if_neg h2]
      by_cases hop : isCompletionOpenOf (handle filterFn s e) = true
      · rw [if_pos hop]
        by_cases hn : (activeItemsOf filterFn (handle filterFn s e)).length = 0
        · rw [if_pos hn]
        · rw [if_neg hn]
          simp
      · rw [if_neg hop]

/-- A detected mention trigger opens the mention menu: its query
respects the length floor (`MIN_AT_QUERY_LENGTH = 1`), hence is truthy,
and the composer is enabled with the slash menu closed. -/
theorem atStateOf_isAtOpen (s : CState) (st : AtQueryState)
    (h : atStateOf s = some st) : isAtOpenOf s = true := by
  have hflags := atStateOf_some_flags s st h
  have hfind : findAtQuery s.text (s.cursorIndex : Int) MIN_AT_QUERY_LENGTH = some st := by
    rw [atStateOf, if_neg (by simp [hflags.1, hflags.2])] at h
    exact h
  have hlen := (findAtQuery_some_facts _ _ _ _ hfind).2
  rw [isAtOpenOf, atQueryOf, h]
  simp only [Option.map_some', Bool.and_eq_true, Bool.not_eq_true']
  refine ⟨⟨?_, hflags.1⟩, hflags.2⟩
  cases hq : st.query with
  | nil => rw [hq] at hlen; simp [MIN_AT_QUERY_LENGTH] at hlen
  | cons a l => simp

/-- With a mention trigger present, Escape runs `clearAtQuery`: the
buffer loses exactly the trigger's span and the cursor lands at the
span's former start. -/
theorem handle_escape_mention (filterFn : List CItem → List Char → List CItem)
    (s : CState) (st : AtQueryState) (h : atStateOf s = some st) :
    handle filterFn s .escape =
      applyTextTo s (s.text.take st.start ++ s.text.drop st.endIdx) st.start := by
  have hflags := atStateOf_some_flags s st h
  have hat := atStateOf_isAtOpen s st h
  have hopen : isCompletionOpenOf s = true := by
    rw [isCompletionOpenOf, hat]
    simp
  have hh : handle filterFn s .escape = clearAtQueryS s := by
    simp [handle, hflags.1, hflags.2, hopen]
  rw [hh, clearAtQueryS, h]
  rfl

/-- Logical characterisation of `slashQuery`. -/
theorem slashQuery_eq_some_iff (text q : List Char) :
    slashQuery text = some q ↔
      ∃ rest, text = '/' :: rest ∧ '\n' ∉ text ∧ ' ' ∉ rest ∧ q = rest := by
  cases text with
  | nil => simp [slashQuery]
  | cons x xs =>
    rw [slashQuery]
    by_cases hx : x = '/'
    · subst hx
      rw [if_neg (by simp)]
      by_cases hn : '\n' ∈ '/' :: xs
      · rw [if_pos hn]
        constructor
        · intro h; cases h
        · rintro ⟨rest, -, hnl, -, -⟩
          exact (hnl hn).elim
      · rw [if_neg hn]
        show (if ' ' ∈ xs then none else some xs) = some q ↔ _
        by_cases hsp : ' ' ∈ xs
        · rw [if_pos hsp]
          constructor
          · intro h; cases h
          · rintro ⟨rest, heq, -, hsp2, -⟩
            injection heq with h1 h2
            subst h2
            exact (hsp2 hsp).elim
        · rw [if_neg hsp]
          constructor
          · intro h
            exact ⟨xs, rfl, hn, hsp, (Option.some.inj h).symm⟩
          · rintro ⟨rest, heq, -, -, rfl⟩
            injection heq with h1 h2
            rw [h2]
    · rw [if_pos (by simp [hx])]
      constructor
      · intro h; cases h
      · rintro ⟨rest, heq, -⟩
        injection heq with h1 h2
        exact (hx h1).elim

/-! ## Claim theorems -/

/-- Claim C1: a file-search response (success or error) mutates the
displayed items or clears the loading flag only if its sequence number
equals the source's current counter when it resolves; a superseded
response is discarded without changing any state.  Concretely, with a
request for "ab" in flight and a request for "abc" dispatched before it
resolves, applying the "ab" response after the "abc" response leaves
the displayed candidates (and everything else) unchanged. -/
theorem claim_C1_staleness :
    (∀ (s : FileSearchState) (id : Nat) (payload : Option (List (List Char)))
       (msg : String), id ≠ s.requestId →
       fileSearchStep s (.responseOk id payload) = s ∧
       fileSearchStep s (.responseErr id msg) = s) ∧
    (fileSearchStep
        (fileSearchRun fsInit
          [.effectRun true (some "w") (some "ab".toList) 200, .timerFire,
           .effectRun true (some "w") (some "abc".toList) 200, .timerFire,
           .responseOk 2 (some ["abc.txt".toList])])
        (.responseOk 1 (some ["ab.txt".toList])) =
      fileSearchRun fsInit
        [.effectRun true (some "w") (some "ab".toList) 200, .timerFire,
         .effectRun true (some "w") (some "abc".toList) 200, .timerFire,
         .responseOk 2 (some ["abc.txt".toList])]) ∧
    (fileSearchRun fsInit
        [.effectRun true (some "w") (some "ab".toList) 200, .timerFire,
         .effectRun true (some "w") (some "abc".toList) 200, .timerFire,
         .responseOk 2 (some ["abc.txt".toList])]).items = ["abc.txt".toList] :=
  ⟨fun s id payload msg h =>
    ⟨fileSearchStep_stale_ok s id payload h, fileSearchStep_stale_err s id msg h⟩,
   by decide, by decide⟩

/-- Witness for C1 at a concrete stale input. -/
theorem claim_C1_witness :
    fileSearchStep fsInit (.responseOk 5 none) = fsInit :=
  (claim_C1_staleness.1 fsInit 5 none "" (by decide)).1

/-- Claim C2: a burst of distinct queries arriving with less than
`debounceMs` between consecutive arrivals (modelled as: no timer fires
during the burst, since each arrival cancels the previous pending
timer) yields exactly one dispatched search, carrying the last query of
the burst; the debug log gains exactly that one dispatch entry. -/
theorem claim_C2_debounce :
    (∀ (s : FileSearchState) (wid : String) (limit : Nat)
       (qs : List (List Char)) (qlast : List Char),
       (∀ q ∈ qs, 1 ≤ (jsTrim q).length) → qs.getLast? = some qlast →
       fileSearchRun s (qs.map (fun q => .effectRun true (some wid) (some q) limit)) =
         { s with requestId := s.requestId + qs.length,
                  pending := some ⟨s.requestId + qs.length, wid, jsTrim qlast, limit⟩ } ∧
       fileSearchStep
           (fileSearchRun s (qs.map (fun q => .effectRun true (some wid) (some q) limit)))
           .timerFire =
         { s with requestId := s.requestId + qs.length, pending := none,
                  isLoading := true,
                  debugLog := .clientDispatch wid (jsTrim qlast) limit :: s.debugLog }) ∧
    (fileSearchStep
        (fileSearchRun fsInit
          (["a".toList, "ab".toList, "abc".toList].map
            (fun q => .effectRun true (some "w") (some q) 200)))
        .timerFire).debugLog = [.clientDispatch "w" "abc".toList 200] := by
  constructor
  · intro s wid limit qs qlast hval hlast
    have hrun := fileSearchRun_burst wid limit qs s qlast hval hlast
    refine ⟨hrun, ?_⟩
    rw [hrun]
    rw [fileSearchStep_fire _ ⟨s.requestId + qs.length, wid, jsTrim qlast, limit⟩ rfl]
  · decide

/-- Witness for C2 at a concrete one-query burst. -/
theorem claim_C2_witness :
    fileSearchRun fsInit
        (List.map (fun q => FsEvent.effectRun true (some "w") (some q) 100)
          ["hi".toList]) =
      { fsInit with requestId := 1,
                    pending := some ⟨1, "w", jsTrim "hi".toList, 100⟩ } :=
  (claim_C2_debounce.1 fsInit "w" 100 ["hi".toList] "hi".toList
    (by decide) (by decide)).1

/-- Claim C3: with the slash trigger inactive, mention detection is
exactly `findAtQuery`, and `findAtQuery` returns a trigger exactly
under the spec's conditions (`MentionOk`): last `@` of the line segment
before the cursor, at line start or after whitespace, no space after
it, after-text at least the minimum length; the trigger then carries
query = after-text, `start = lineStart + atIndex`, `end = cursor`.
The three concrete examples of the spec hold. -/
theorem claim_C3_mention_detection :
    (∀ s : CState, s.disabled = false → isSlashOpenOf s = false →
       atStateOf s = findAtQuery s.text (s.cursorIndex : Int) MIN_AT_QUERY_LENGTH) ∧
    (∀ (text : List Char) (c minLength : Nat) (st : AtQueryState),
       findAtQuery text (c : Int) minLength = some st ↔ MentionOk text c minLength st) ∧
    findAtQuery "hello @wor".toList 10 1 = some ⟨"wor".toList, 6, 10⟩ ∧
    findAtQuery "hello @wor ld".toList 10 1 = some ⟨"wor".toList, 6, 10⟩ ∧
    findAtQuery "hello@wor".toList 9 1 = none :=
  ⟨fun s h1 h2 => by rw [atStateOf, if_neg (by simp [h1, h2])],
   findAtQuery_eq_some_iff, by decide, by decide, by decide⟩

/-- Witness for C3: the spec-side condition extracted from a concrete
detection through the characterisation. -/
theorem claim_C3_witness :
    MentionOk "hello @wor".toList 10 1 ⟨"wor".toList, 6, 10⟩ :=
  (claim_C3_mention_detection.2.1 "hello @wor".toList 10 1
    ⟨"wor".toList, 6, 10⟩).mp (by decide)

/-- Claim C4: the slash trigger is active iff the buffer starts with
`/`, has no newline and no space after the slash, with the query being
the text after the slash; selecting a slash candidate replaces the
whole buffer (the trigger's span), and the two concrete examples hold. -/
theorem claim_C4_slash_detection :
    (∀ text q : List Char,
       slashQuery text = some q ↔
         ∃ rest, text = '/' :: rest ∧ '\n' ∉ text ∧ ' ' ∉ rest ∧ q = rest) ∧
    slashQuery "/foo".toList = some "foo".toList ∧
    slashQuery "/foo bar".toList = none ∧
    (∀ (s : CState) (it : CItem),
       (handleSelectSlashItemS s it).text = it.insertText ∧
       (handleSelectSlashItemS s it).cursorIndex = it.insertText.length) :=
  ⟨slashQuery_eq_some_iff, by decide, by decide, fun s it => ⟨rfl, rfl⟩⟩

/-- Witness for C4 through the characterisation's reverse direction. -/
theorem claim_C4_witness : slashQuery "/ab".toList = some "ab".toList :=
  (claim_C4_slash_detection.1 "/ab".toList "ab".toList).mpr
    ⟨"ab".toList, by decide, by decide, by decide, rfl⟩

/-- Claim C5: applying a candidate over a known trigger span yields
`text[0:start] ++ insertText ++ text[end:]` with the cursor at
`start + insertText.length`; without a span the whole buffer becomes
`insertText` with the cursor at its end.  The concrete mention example
and the slash confirm example hold. -/
theorem claim_C5_apply :
    (∀ (text : List Char) (ci : Int) (m : Nat) (st : AtQueryState)
       (ins : List Char), findAtQuery text ci m = some st →
       handleSelectFileItemText text (some st) ins =
         (text.take st.start ++ ins ++ text.drop st.endIdx,
          st.start + ins.length)) ∧
    (∀ text ins : List Char,
       handleSelectFileItemText text none ins = (ins, ins.length)) ∧
    handleSelectFileItemText "hello @wor rest".toList
        (some ⟨"wor".toList, 6, 10⟩) "$deploy ".toList =
      ("hello $deploy  rest".toList, 14) ∧
    handleSelectSlashItemText "/review ".toList = ("/review ".toList, 8) := by
  refine ⟨?_, fun text ins => rfl, by decide, by decide⟩
  intro text ci m st ins h
  have hstart := (findAtQuery_some_facts text ci m st h).1
  have hlen : (text.take st.start).length = st.start := by
    rw [List.length_take]; omega
  simp only [handleSelectFileItemText]
  rw [hlen]

/-- Witness for C5 at a concrete detected trigger. -/
theorem claim_C5_witness :
    handleSelectFileItemText "hi @ab".toList (some ⟨"ab".toList, 3, 6⟩)
        "X".toList =
      ("hi @ab".toList.take 3 ++ "X".toList ++ "hi @ab".toList.drop 6,
       3 + "X".toList.length) :=
  claim_C5_apply.1 "hi @ab".toList 6 1 ⟨"ab".toList, 3, 6⟩ "X".toList (by decide)

/-- Claim C6: dismissing a slash trigger clears the whole buffer with
the cursor at `0`; dismissing a mention trigger removes exactly the
trigger's span and puts the cursor at the span's former start.  The
concrete scenario on "fix @bu" (run end to end through the machine,
typing then Escape) yields "fix " with cursor 4. -/
theorem claim_C6_dismiss :
    (∀ (filterFn : List CItem → List Char → List CItem) (s : CState),
       s.disabled = false → isSlashOpenOf s = true →
       handle filterFn s .escape = applyTextTo s [] 0) ∧
    (∀ (filterFn : List CItem → List Char → List CItem) (s : CState)
       (st : AtQueryState), atStateOf s = some st →
       (handle filterFn s .escape).text =
         s.text.take st.start ++ s.text.drop st.endIdx ∧
       (handle filterFn s .escape).cursorIndex = st.start) ∧
    (cstep idFilter (cstep idFilter (initComposer [] [] false)
        (.input "fix @bu".toList 7)) .escape).text = "fix ".toList ∧
    (cstep idFilter (cstep idFilter (initComposer [] [] false)
        (.input "fix @bu".toList 7)) .escape).cursorIndex = 4 := by
  refine ⟨?_, ?_, by decide, by decide⟩
  · intro filterFn s hd hs
    have hopen : isCompletionOpenOf s = true := by
      rw [isCompletionOpenOf, hs]; rfl
    simp [handle, hd, hopen, hs]
  · intro filterFn s st h
    rw [handle_escape_mention filterFn s st h]
    exact ⟨rfl, rfl⟩

/-- Witness for C6 at a concrete mention state. -/
theorem claim_C6_witness :
    (handle idFilter
        { text := "fix @bu".toList, cursorIndex := 7, completionIndex := 0,
          slashItems := [], fileItems := [], disabled := false,
          deps1 := (none, false, none), deps2 := (0, false) } .escape).text =
      "fix @bu".toList.take 4 ++ "fix @bu".toList.drop 7 :=
  (claim_C6_dismiss.2.1 idFilter _ ⟨"bu".toList, 4, 7⟩ (by decide)).1

/-- Claim C7: in every reachable composer state the highlighted index is
within `[0, candidates.length - 1]` (and `0` on an empty list), and any
step that changes the active trigger's query or kind (including opening
or closing) leaves the highlight at `0`.  The machine is parametric in
the slash filter, so this holds for every filter. -/
theorem claim_C7_highlight (filterFn : List CItem → List Char → List CItem)
    (s : CState) (h : Reach filterFn s) :
    HighlightOK filterFn s ∧
    (∀ e : CEvent, ValidEvent filterFn s e →
      triggerSigOf (cstep filterFn s e) ≠ triggerSigOf s →
      (cstep filterFn s e).completionIndex = 0) :=
  ⟨(reach_cinv filterFn s h).2.2,
   fun e _ hsig => cstep_reset filterFn s e (reach_cinv filterFn s h) hsig⟩

/-- Witness for C7 at the mount state. -/
theorem claim_C7_witness : HighlightOK idFilter (initComposer [] [] false) :=
  (claim_C7_highlight idFilter (initComposer [] [] false)
    (Reach.init [] [] false)).1

/-- Claim C8: a backend failure is fully absorbed by the source: if the
response is current, the items are cleared, the error is reported to
the observability log and loading stops; if stale, nothing changes.  In
either case the step yields a state (the `try`/`catch`/`finally`
swallows the exception), and nothing outside `items`/`isLoading`/
`debugLog` is touched. -/
theorem claim_C8_error_handling (s : FileSearchState) (id : Nat) (msg : String) :
    fileSearchStep s (.responseErr id msg) =
      (if s.requestId = id then
        { s with items := [], isLoading := false,
                 debugLog := .clientError msg :: s.debugLog }
       else s) := by
  by_cases h : s.requestId = id
  · rw [if_pos h]
    exact fileSearchStep_current_err s id msg h
  · rw [if_neg h]
    exact fileSearchStep_stale_err s id msg (fun he => h he.symm)

/-- Claim C9: with the menu open on `n` candidates, next-highlight is
`(i + 1) mod n` and previous-highlight is `(i - 1 + n) mod n` for
`n > 0`, and both are no-ops for `n = 0`; concretely, next from 2 of 3
is 0 and previous from 0 of 3 is 2. -/
theorem claim_C9_navigation :
    (∀ i : Nat, arrowDownIndex i 0 = i ∧ arrowUpIndex i 0 = i) ∧
    (∀ i n : Nat, 0 < n →
       arrowDownIndex i n = (i + 1) % n ∧
       ((arrowUpIndex i n : Nat) : Int) = ((i : Int) - 1 + n) % (n : Int)) ∧
    arrowDownIndex 2 3 = 0 ∧ arrowUpIndex 0 3 = 2 := by
  refine ⟨fun i => ⟨rfl, rfl⟩, ?_, by decide, by decide⟩
  intro i n hn
  constructor
  · rw [arrowDownIndex, if_neg (by omega)]
  · rw [arrowUpIndex, if_neg (by omega), Int.ofNat_emod]
    congr 1
    omega

/-- Witness for C9 at a concrete positive count. -/
theorem claim_C9_witness :
    arrowDownIndex 5 7 = (5 + 1) % 7 ∧
    ((arrowUpIndex 5 7 : Nat) : Int) = ((5 : Int) - 1 + 7) % (7 : Int) :=
  claim_C9_navigation.2.1 5 7 (by decide)

/-- Claim C10: mention detection returns `null` for every negative
cursor, whatever the text; it is total, and a cursor past the end of
the text is handled (clamped by `slice`) rather than faulting, as the
concrete past-the-end example shows. -/
theorem claim_C10_negative_cursor :
    (∀ (text : List Char) (ci : Int) (m : Nat), ci < 0 →
       findAtQuery text ci m = none) ∧
    findAtQuery "@ab".toList 100 1 = some ⟨"ab".toList, 0, 100⟩ :=
  ⟨fun text ci m h => by rw [findAtQuery, if_pos h], by decide⟩

/-- Witness for C10 at a concrete negative cursor. -/
theorem claim_C10_witness : findAtQuery "xyz".toList (-3) 1 = none :=
  claim_C10_negative_cursor.1 "xyz".toList (-3) 1 (by decide)
